import Mathlib

/-!
Verification of the axon tool-calling conversation loop, streaming response
assembler, confirmation prompt and path-containment checks, as a shallow
embedding of the Go source (pkg/llm/streaming.go, pkg/llm/chat_tools.go,
pkg/fsctx, pkg/chat).

Go strings are modelled as Lean `String`; Go `int` as `Int`; fallible Go
functions returning `(T, error)` as `Except String T`.
-/

namespace Axon

/-! ## Data model (pkg/llm/tools.go)

`ToolCallFunction` and `ToolCall` mirror the Go structs field by field. -/

/-- Mirror of Go `ToolCallFunction`: the function name and the (possibly
still accumulating) JSON arguments string. -/
structure ToolCallFunction where
  name : String
  arguments : String
deriving DecidableEq, Repr

/-- Mirror of Go `ToolCall`: streaming index, id, type and function payload. -/
structure ToolCall where
  index : Int
  id : String
  type : String
  function : ToolCallFunction
deriving DecidableEq, Repr

/-- Mirror of Go `Message` (conversation turn). -/
structure Message where
  role : String
  content : String
  toolCalls : List ToolCall
  toolCallID : String
  name : String
deriving DecidableEq, Repr

/-! ## Streaming response assembler (pkg/llm/streaming.go, chatCompletionStream)

The SSE loop is embedded as a fold over a list of already-line-split events.
Lines that are empty, not `data:`-prefixed, or malformed JSON are all
`continue`d by the Go loop and appear here as `skipped`. -/

/-- One parsed streamed delta (`choices[i].delta`). -/
structure StreamDelta where
  content : String
  toolCalls : List ToolCall
deriving DecidableEq, Repr

/-- One parsed streamed choice (`choices[i]`). -/
structure StreamChoice where
  delta : StreamDelta
  finishReason : String
deriving DecidableEq, Repr

/-- One record of the event stream as seen by the scanner loop. -/
inductive StreamEvent where
  /-- an empty line, a non-`data:` line, or a malformed JSON payload: skipped -/
  | skipped : StreamEvent
  /-- a `data:` line that parsed, carrying the choices list -/
  | line (choices : List StreamChoice) : StreamEvent
  /-- the literal `data: [DONE]` sentinel -/
  | done : StreamEvent
  /-- a failed read of the event stream (`scanner.Err() != nil`) -/
  | readError (msg : String) : StreamEvent
deriving DecidableEq, Repr

/-- Accumulator of the scanner loop: `fullResponse`, `toolCalls`,
`finishReason` local variables of `chatCompletionStream`. -/
structure StreamAcc where
  text : String
  toolCalls : List ToolCall
  finishReason : String
deriving DecidableEq, Repr

/-- Initial accumulator state at the start of the scanner loop. -/
def StreamAcc.init : StreamAcc := ⟨"", [], ""⟩

/-- Mirror of the triple `(string, []ToolCall, error)` returned by
`chatCompletionStream`. -/
structure StreamResult where
  text : String
  toolCalls : List ToolCall
  err : Option String
deriving DecidableEq, Repr

/-- Lookup of a merge target by index (streaming.go lines 197-202): the
delta's index must be in bounds and the entry at that position must carry
the same index (defensive check). -/
def idxTarget (toolCalls : List ToolCall) (d : ToolCall) : Option Nat :=
  if h : 0 ≤ d.index ∧ d.index.toNat < toolCalls.length then
    if (toolCalls.get ⟨d.index.toNat, h.2⟩).index = d.index then some d.index.toNat
    else none
  else none

/-- Position of the first entry carrying the given id (the linear search of
streaming.go lines 206-211). -/
def findIdxById : List ToolCall → String → Option Nat
  | [], _ => none
  | tc :: rest, id0 =>
    if tc.id = id0 then some 0 else (findIdxById rest id0).map (fun i => i + 1)

/-- Lookup of a merge target by id (streaming.go lines 205-212): first entry
whose id equals the delta's non-empty id. -/
def idTarget (toolCalls : List ToolCall) (d : ToolCall) : Option Nat :=
  if d.id ≠ "" then findIdxById toolCalls d.id else none

/-- Field merge into an existing target (streaming.go lines 216-229):
id/type/name are copied only into still-empty fields; arguments are always
appended, never overwritten. -/
def mergeInto (e d : ToolCall) : ToolCall :=
  let e1 := if d.id ≠ "" ∧ e.id = "" then { e with id := d.id } else e
  let e2 := if d.type ≠ "" ∧ e1.type = "" then { e1 with type := d.type } else e1
  let e3 := if d.function.name ≠ "" ∧ e2.function.name = "" then
      { e2 with function := { e2.function with name := d.function.name } } else e2
  if d.function.arguments ≠ "" then
    { e3 with function :=
        { e3.function with arguments := e3.function.arguments ++ d.function.arguments } }
  else e3

/-- Index normalisation for a fresh tool call (streaming.go lines 232-237):
a negative index is assigned the next free slot, or 0 on an empty list. -/
def normalizeIndex (toolCalls : List ToolCall) (d : ToolCall) : ToolCall :=
  if d.index < 0 ∧ 0 < toolCalls.length then { d with index := (toolCalls.length : Int) }
  else if d.index < 0 then { d with index := 0 }
  else d

/-- Empty placeholder entry appended while growing the list
(streaming.go line 240): its index is the length at append time. -/
def placeholder (i : Nat) : ToolCall := ⟨(i : Int), "", "", ⟨"", ""⟩⟩

/-- Growth loop (streaming.go lines 239-241): append placeholders until the
target index is a valid position. -/
def growTo (toolCalls : List ToolCall) (target : Nat) : List ToolCall :=
  toolCalls ++ (List.range (target + 1 - toolCalls.length)).map
    (fun k => placeholder (toolCalls.length + k))

/-- Post-placement index fix (streaming.go lines 246-248): force the placed
entry's index to its position if they disagree. -/
def fixIndexAt (toolCalls : List ToolCall) (i : Nat) : List ToolCall :=
  match toolCalls.get? i with
  | some e => if e.index ≠ (i : Int) then toolCalls.set i { e with index := (i : Int) } else toolCalls
  | none => toolCalls

/-- Introduction of a new tool call (streaming.go lines 231-251): normalise
the index, grow with placeholders, place the fragment, fix its index; the
trailing append branch runs only if the slot is somehow still out of range. -/
def insertNew (toolCalls : List ToolCall) (d : ToolCall) : List ToolCall :=
  let d1 := normalizeIndex toolCalls d
  let grown := growTo toolCalls d1.index.toNat
  if d1.index.toNat < grown.length then
    fixIndexAt (grown.set d1.index.toNat d1) d1.index.toNat
  else grown ++ [d1]

/-- Merge of one streamed tool-call fragment into the in-progress list
(streaming.go lines 194-252): by index first, by id second, new entry last. -/
def mergeDelta (toolCalls : List ToolCall) (d : ToolCall) : List ToolCall :=
  match idxTarget toolCalls d with
  | some i => toolCalls.set i (mergeInto (toolCalls.getD i (placeholder 0)) d)
  | none =>
    match idTarget toolCalls d with
    | some i => toolCalls.set i (mergeInto (toolCalls.getD i (placeholder 0)) d)
    | none => insertNew toolCalls d

/-- Completeness filter (streaming.go lines 260-269 and 280-285): keep only
entries with non-empty id and non-empty function name. -/
def completeFilter (toolCalls : List ToolCall) : List ToolCall :=
  toolCalls.filter (fun tc => decide (tc.id ≠ "" ∧ tc.function.name ≠ ""))

/-- Tool-call merging plus the mid-stream completeness filter applied while
`finishReason = "tool_calls"` (streaming.go lines 193-270). -/
def stepToolsAndFilter (acc : StreamAcc) (choice : StreamChoice) : StreamAcc :=
  let merged := { acc with toolCalls := choice.delta.toolCalls.foldl mergeDelta acc.toolCalls }
  if merged.finishReason = "tool_calls" then
    { merged with toolCalls := completeFilter merged.toolCalls }
  else merged

/-- Processing of one parsed choice (streaming.go lines 176-270): record the
finish reason, append content and fire the callback (whose failure aborts),
then merge tool-call fragments and apply the mid-stream filter. -/
def processChoice (cb : String → Option String) (acc : StreamAcc) (choice : StreamChoice) :
    Except String StreamAcc :=
  let acc1 := { acc with finishReason := choice.finishReason }
  let step : Except String StreamAcc :=
    if choice.delta.content ≠ "" then
      let acc2 := { acc1 with text := acc1.text ++ choice.delta.content }
      match cb choice.delta.content with
      | some e => .error e
      | none => .ok acc2
    else .ok acc1
  match step with
  | .error e => .error e
  | .ok acc3 => .ok (stepToolsAndFilter acc3 choice)

/-- Stream-end extraction (streaming.go lines 277-295): with last finish
reason `"tool_calls"` return the filtered complete-only list, otherwise no
tool calls at all. -/
def finalizeStream (acc : StreamAcc) : StreamResult :=
  if acc.finishReason = "tool_calls" then ⟨acc.text, completeFilter acc.toolCalls, none⟩
  else ⟨acc.text, [], none⟩

/-- The scanner loop of `chatCompletionStream` (streaming.go lines 139-295)
over an explicit event list. A callback failure or a read error returns the
Go triple `("", nil, err)`. -/
def runEvents (cb : String → Option String) (acc : StreamAcc) :
    List StreamEvent → StreamResult
  | [] => finalizeStream acc
  | .skipped :: rest => runEvents cb acc rest
  | .done :: _ => finalizeStream acc
  | .readError e :: _ => ⟨"", [], some ("error reading stream: " ++ e)⟩
  | .line [] :: rest => runEvents cb acc rest
  | .line (choice :: _) :: rest =>
    match processChoice cb acc choice with
    | .error e => ⟨"", [], some e⟩
    | .ok acc1 => runEvents cb acc1 rest

/-- `chatCompletionStream` after a successful HTTP setup: run the scanner
loop from the fresh accumulator. -/
def chatCompletionStream (cb : String → Option String) (events : List StreamEvent) :
    StreamResult :=
  runEvents cb StreamAcc.init events

/-- The accumulator state at stream end, `none` when the call aborts on a
read error or callback failure (specification device for the loop above). -/
def streamFinalAcc (cb : String → Option String) (acc : StreamAcc) :
    List StreamEvent → Option StreamAcc
  | [] => some acc
  | .skipped :: rest => streamFinalAcc cb acc rest
  | .done :: _ => some acc
  | .readError _ :: _ => none
  | .line [] :: rest => streamFinalAcc cb acc rest
  | .line (choice :: _) :: rest =>
    match processChoice cb acc choice with
    | .error _ => none
    | .ok acc1 => streamFinalAcc cb acc1 rest

/-! ## Conversation loop (pkg/llm/chat_tools.go ChatWithTools,
pkg/llm/streaming.go ChatWithToolsStream)

The transport call and the JSON argument decoder are external collaborators
(net/http and encoding/json) and enter as function parameters. Both loops
share tool-call processing code that is textually identical in the two Go
files; it is embedded once as `execToolCalls`. The Go `for iteration <
maxIterations` loop is embedded with the remaining iteration count
(`maxIterations - iteration`) as fuel. -/

/-- Decoded tool arguments (`map[string]interface{}` restricted to the
string-valued arguments the tools consume). -/
def Args : Type := List (String × String)

/-- Outcome of one conversation turn together with the number of model
calls that were issued. -/
structure LoopOut where
  result : Except String String
  modelCalls : Nat
deriving Repr

/-- Per-round tool-call execution shared by ChatWithTools (chat_tools.go
lines 52-84) and ChatWithToolsStream (streaming.go lines 56-88): an argument
decode failure is fatal; an executor failure is folded into the tool result
string prefixed with `Error: `, and a tool-role message carrying the call's
id and name is appended either way. -/
def execToolCalls (parse : String → Option Args)
    (exec : String → Args → Except String String) :
    List Message → List ToolCall → Except String (List Message)
  | messages, [] => .ok messages
  | messages, tc :: rest =>
    match parse tc.function.arguments with
    | none => .error ("failed to parse tool arguments (raw: " ++ tc.function.arguments ++ ")")
    | some args =>
      let result := match exec tc.function.name args with
        | .error e => "Error: " ++ e
        | .ok r => r
      execToolCalls parse exec
        (messages ++ [⟨"tool", result, [], tc.id, tc.function.name⟩]) rest

/-- The non-streaming loop body of `ChatWithTools` (chat_tools.go lines
21-95). `respond` abstracts `chatCompletion` and returns the choices'
messages; fuel is the number of iterations still allowed. -/
def chatWithToolsAux (respond : List Message → Except String (List Message))
    (parse : String → Option Args) (exec : String → Args → Except String String) :
    List Message → Nat → LoopOut
  | _, 0 => ⟨.error "maximum iterations reached - possible infinite tool call loop", 0⟩
  | messages, fuel + 1 =>
    match respond messages with
    | .error e => ⟨.error e, 1⟩
    | .ok [] => ⟨.error "no choices in LLM response", 1⟩
    | .ok (assistantMsg :: _) =>
      let messages1 := messages ++ [assistantMsg]
      if 0 < assistantMsg.toolCalls.length then
        match execToolCalls parse exec messages1 assistantMsg.toolCalls with
        | .error e => ⟨.error e, 1⟩
        | .ok messages2 =>
          let r := chatWithToolsAux respond parse exec messages2 fuel
          ⟨r.result, r.modelCalls + 1⟩
      else ⟨.ok assistantMsg.content, 1⟩

/-- `ChatWithTools` with its hard cap of 10 iterations (chat_tools.go
line 18). -/
def ChatWithTools (respond : List Message → Except String (List Message))
    (parse : String → Option Args) (exec : String → Args → Except String String)
    (messages : List Message) : LoopOut :=
  chatWithToolsAux respond parse exec messages 10

/-- The streaming loop body of `ChatWithToolsStream` (streaming.go lines
21-101). `respondS` abstracts `chatCompletionStream` and returns the
assembled text and finalized tool calls of one round. -/
def chatWithToolsStreamAux
    (respondS : List Message → Except String (String × List ToolCall))
    (parse : String → Option Args) (exec : String → Args → Except String String) :
    List Message → Nat → LoopOut
  | _, 0 => ⟨.error "maximum iterations reached - possible infinite tool call loop", 0⟩
  | messages, fuel + 1 =>
    match respondS messages with
    | .error e => ⟨.error e, 1⟩
    | .ok (fullResponse, toolCalls) =>
      if 0 < toolCalls.length then
        let assistantMsg : Message := ⟨"assistant", fullResponse, toolCalls, "", ""⟩
        let messages1 := messages ++ [assistantMsg]
        match execToolCalls parse exec messages1 toolCalls with
        | .error e => ⟨.error e, 1⟩
        | .ok messages2 =>
          let r := chatWithToolsStreamAux respondS parse exec messages2 fuel
          ⟨r.result, r.modelCalls + 1⟩
      else ⟨.ok fullResponse, 1⟩

/-- `ChatWithToolsStream` with its hard cap of 10 iterations (streaming.go
line 22). -/
def ChatWithToolsStream
    (respondS : List Message → Except String (String × List ToolCall))
    (parse : String → Option Args) (exec : String → Args → Except String String)
    (messages : List Message) : LoopOut :=
  chatWithToolsStreamAux respondS parse exec messages 10

/-! ## Confirmation prompt (pkg/chat confirmAction)

`strings.ToLower` and `strings.TrimSpace` are modelled on their ASCII
fragment, which covers every input the affirmative check distinguishes. -/

/-- ASCII fragment of Go `strings.ToLower`. -/
def goToLower (s : String) : String :=
  String.mk (s.data.map (fun c => if 'A' ≤ c ∧ c ≤ 'Z' then Char.ofNat (c.toNat + 32) else c))

/-- Whitespace recognised by the model of `strings.TrimSpace`. -/
def isSpaceChar (c : Char) : Bool := c = ' ' ∨ c = '\t' ∨ c = '\n' ∨ c = '\r'

/-- ASCII fragment of Go `strings.TrimSpace`. -/
def goTrimSpace (s : String) : String :=
  String.mk (((s.data.dropWhile isSpaceChar).reverse.dropWhile isSpaceChar).reverse)

/-- The affirmative check of `confirmAction` (chat session, lines 32-37):
lowercase, trim, accept the empty response, otherwise accept exactly
`"yes"` or `"y"`. -/
def confirmAffirmative (input : String) : Bool :=
  let response := goTrimSpace (goToLower input)
  if response = "" then true
  else response = "yes" || response = "y"

/-- `confirmAction` (chat session, lines 21-38): a failed read of the input
line is an error, otherwise the affirmative check decides. The prompt text
itself is terminal output and carries no data. -/
def confirmAction : Option String → Except String Bool
  | none => .error "failed to read confirmation input"
  | some line => .ok (confirmAffirmative line)

/-! ## Unix path arithmetic (path/filepath fragment)

`filepath.Clean`, `Join`, `Rel`, `IsAbs` and `strings.HasPrefix` on Unix
("/" separator), modelled on the character lists underlying the strings.
`filepath.Abs` is modelled with an explicit working directory `cwd`; on an
absolute input it equals `Clean` and performs no system call. -/

/-- Go `filepath.IsAbs` on Unix: the path starts with a slash. -/
def isAbsPath (s : String) : Bool :=
  match s.data with
  | '/' :: _ => true
  | _ => false

/-- Split a character list on slashes; adjacent slashes yield empty groups,
as in Go's `strings.Split(path, "/")`. -/
def splitSlash : List Char → List (List Char)
  | [] => [[]]
  | c :: rest =>
    let r := splitSlash rest
    if c = '/' then [] :: r
    else
      match r with
      | [] => [[c]]
      | g :: gs => (c :: g) :: gs

/-- One step of `filepath.Clean` over the path elements, with the output
accumulated in reverse: empty and `.` elements are dropped, `..` pops a
non-`..` element (and disappears at the root of a rooted path). -/
def cleanStep (rooted : Bool) (acc : List (List Char)) (c : List Char) : List (List Char) :=
  if c = [] ∨ c = ['.'] then acc
  else if c = ['.', '.'] then
    match acc with
    | [] => if rooted then [] else [['.', '.']]
    | a :: rest => if a = ['.', '.'] then c :: acc else rest
  else c :: acc

/-- The element-list part of `filepath.Clean`. -/
def cleanComps (rooted : Bool) (comps : List (List Char)) : List (List Char) :=
  (comps.foldl (cleanStep rooted) []).reverse

/-- Join path elements with slashes. -/
def joinComps : List (List Char) → List Char
  | [] => []
  | [c] => c
  | c :: rest => c ++ '/' :: joinComps rest

/-- Go `filepath.Clean` on Unix. -/
def cleanPath (s : String) : String :=
  let rooted := isAbsPath s
  let comps := cleanComps rooted (splitSlash s.data)
  if rooted then String.mk ('/' :: joinComps comps)
  else if comps = [] then "." else String.mk (joinComps comps)

/-- Go `filepath.Join` of two elements on Unix: the non-empty elements
joined with a slash, then cleaned. -/
def joinPath (a b : String) : String :=
  if a = "" ∧ b = "" then ""
  else if a = "" then cleanPath b
  else if b = "" then cleanPath a
  else cleanPath (String.mk (a.data ++ '/' :: b.data))

/-- Go `filepath.Abs` with an explicit working directory: clean an absolute
path, join a relative one onto `cwd`. -/
def goAbs (cwd s : String) : String :=
  if isAbsPath s then cleanPath s else joinPath cwd s

/-- The path elements of the cleaned form of `s` (empty groups dropped). -/
def pathCompsClean (s : String) : List (List Char) :=
  (splitSlash (cleanPath s).data).filter (fun g => ¬ g = [])

/-- Element-wise core of Go `filepath.Rel` for two cleaned absolute paths:
strip the common prefix, then one `..` per remaining base element followed
by the remaining target elements. -/
def relComps : List (List Char) → List (List Char) → List (List Char)
  | [], ts => ts
  | _ :: bs, [] => List.replicate (bs.length + 1) ['.', '.']
  | b :: bs, t :: ts =>
    if b = t then relComps bs ts
    else List.replicate (bs.length + 1) ['.', '.'] ++ t :: ts

/-- Go `filepath.Rel` restricted to absolute base and target, where it
never fails: `.` when the paths coincide. -/
def relPath (base targ : String) : String :=
  let rc := relComps (pathCompsClean base) (pathCompsClean targ)
  if rc = [] then "." else String.mk (joinComps rc)

/-- Go `strings.HasPrefix`. -/
def strHasPfx (s pre : String) : Bool := pre.data.isPrefixOf s.data

/-! ## Path containment (pkg/fsctx, part_005 version: the one the chat
session's tools link against through `Session.resolvePath`) -/

/-- `fsctx.ValidatePath` (part_005 lines 410-433): make both paths
absolute, compute the relative path from root to target, and reject when it
begins with `..`. -/
def ValidatePath (cwd projectRoot filePath : String) : Except String Unit :=
  let projectRootAbs := goAbs cwd projectRoot
  let filePathAbs := goAbs cwd filePath
  let relP := relPath projectRootAbs filePathAbs
  if strHasPfx relP ".." then .error ("path is outside project root: " ++ filePath)
  else .ok ()

/-- `fsctx.ResolvePath` (part_005 lines 437-455): an absolute path is
validated as is, a relative path is joined onto the root; the resulting
full path is validated again and returned. -/
def ResolvePath (cwd projectRoot path : String) : Except String String :=
  match (if isAbsPath path then
          match ValidatePath cwd projectRoot path with
          | .error e => .error e
          | .ok _ => .ok path
        else (.ok (joinPath projectRoot path) : Except String String)) with
  | .error e => .error e
  | .ok fullPath =>
    match ValidatePath cwd projectRoot fullPath with
    | .error e => .error e
    | .ok _ => .ok fullPath

/-- Where a path argument lands before validation: kept as is when
absolute, joined onto the root when relative (specification device). -/
def resolvedPath (projectRoot path : String) : String :=
  if isAbsPath path then path else joinPath projectRoot path

/-! ## Mutating tools (pkg/chat, part_004 toolWriteFile and
pkg/chat/tools_additional.go toolDeleteFile)

The filesystem is an explicit association list from absolute path to file
content; `os.Stat` existence checks and `os.WriteFile` / `os.Remove`
effects act on it. `json.Marshal` output is reproduced literally (Go
marshals map keys in sorted order; string escaping is elided as the
modelled strings contain no characters needing escapes). -/

/-- Filesystem state: files keyed by absolute path. -/
structure FSState where
  files : List (String × String)
deriving DecidableEq, Repr

/-- Update or add one file. -/
def setFile : List (String × String) → String → String → List (String × String)
  | [], k, v => [(k, v)]
  | (k1, v1) :: rest, k, v =>
    if k1 = k then (k, v) :: rest else (k1, v1) :: setFile rest k v

/-- Go `args[key].(string)`: present and string-valued. -/
def getStringArg (args : Args) (key : String) : Option String :=
  args.lookup key

/-- Go `strings.ReplaceAll(path, "\\", "/")`. -/
def normalizeSlashes (s : String) : String :=
  String.mk (s.data.map (fun c => if c = '\\' then '/' else c))

/-- The literal cancellation result every mutating tool returns on a
declined confirmation. -/
def cancelledJSON : String :=
  "\x7b\"cancelled\": true, \"message\": \"User cancelled the operation\"\x7d"

/-- `fsctx.WriteFile` (part_005 lines 479-504): refuse ignored paths,
resolve with containment validation, then write. Directory creation has no
observable effect on the file map. -/
def fsctxWriteFile (cwd projectRoot : String) (shouldIgnore : String → Bool)
    (fs : FSState) (filePath content : String) : Except String FSState :=
  if shouldIgnore (normalizeSlashes filePath) then
    .error ("cannot write to ignored path: " ++ filePath)
  else
    match ResolvePath cwd projectRoot filePath with
    | .error e => .error ("invalid path: " ++ e)
    | .ok fullPath => .ok ⟨setFile fs.files fullPath content⟩

/-- `toolWriteFile` (part_004 lines 297-348): argument checks, path
resolution, confirmation (declining returns the cancellation result on the
success path), then the write. Returns the Go `(string, error)` pair
together with the filesystem after the call. -/
def toolWriteFile (cwd projectRoot : String) (shouldIgnore : String → Bool)
    (fs : FSState) (confirmInput : Option String) (args : Args) :
    Except String String × FSState :=
  match getStringArg args "path" with
  | none => (.error "path argument is required", fs)
  | some path =>
    if path = "" then (.error "path argument is required", fs)
    else
      match getStringArg args "content" with
      | none => (.error "content argument is required", fs)
      | some content =>
        match ResolvePath cwd projectRoot path with
        | .error e => (.error ("invalid path: " ++ e), fs)
        | .ok _ =>
          match confirmAction confirmInput with
          | .error e => (.error ("failed to get confirmation: " ++ e), fs)
          | .ok confirmed =>
            if confirmed = false then (.ok cancelledJSON, fs)
            else
              match fsctxWriteFile cwd projectRoot shouldIgnore fs path content with
              | .error e => (.error ("failed to write file: " ++ e), fs)
              | .ok fs1 =>
                (.ok ("\x7b\"message\":\"File written successfully\",\"path\":\"" ++
                  path ++ "\",\"success\":true\x7d"), fs1)

/-- `toolDeleteFile` (tools_additional.go lines 16-55): argument check,
path resolution, existence check, confirmation (declining returns the
cancellation result on the success path), then `os.Remove`. -/
def toolDeleteFile (cwd projectRoot : String) (fs : FSState)
    (confirmInput : Option String) (args : Args) : Except String String × FSState :=
  match getStringArg args "path" with
  | none => (.error "path argument is required", fs)
  | some path =>
    if path = "" then (.error "path argument is required", fs)
    else
      match ResolvePath cwd projectRoot path with
      | .error e => (.error ("invalid path: " ++ e), fs)
      | .ok fullPath =>
        match fs.files.lookup fullPath with
        | none => (.error ("file does not exist: " ++ path), fs)
        | some _ =>
          match confirmAction confirmInput with
          | .error e => (.error ("failed to get confirmation: " ++ e), fs)
          | .ok confirmed =>
            if confirmed = false then (.ok cancelledJSON, fs)
            else
              (.ok ("\x7b\"message\":\"File deleted successfully\",\"path\":\"" ++
                path ++ "\",\"success\":true\x7d"),
               ⟨fs.files.filter (fun kv => ¬ kv.1 = fullPath)⟩)

/-! ## Specification devices

Definitions used only to state properties about the embedding above. -/

/-- A delta fragment carrying only an arguments chunk for the call at
`index i`. -/
def argFrag (i : Int) (s : String) : ToolCall := ⟨i, "", "", ⟨"", s⟩⟩

/-- Concatenation of argument chunks in arrival order. -/
def concatChunks : List String → String
  | [] => ""
  | c :: cs => c ++ concatChunks cs

/-- Positional consistency of the in-progress tool-call list: the entry
stored at position `i` carries index `i`. -/
def PosConsistent (toolCalls : List ToolCall) : Prop :=
  ∀ (i : Nat) (tc : ToolCall), toolCalls.get? i = some tc → tc.index = (i : Int)

/-- The event carries no choice whose finish reason is `"tool_calls"` (only
the first choice is ever inspected by the loop). -/
def eventNoFinishTC : StreamEvent → Prop
  | .line (c :: _) => c.finishReason ≠ "tool_calls"
  | _ => True

/-- A path element that is nonempty and contains no separator. -/
abbrev PlainComp (c : List Char) : Prop := c ≠ [] ∧ '/' ∉ c

/-- A path element that `filepath.Clean` leaves alone. -/
abbrev CleanComp (c : List Char) : Prop := PlainComp c ∧ c ≠ ['.'] ∧ c ≠ ['.', '.']

/-- A clean path element that moreover does not begin with the two
characters `..` (such an element would trip the containment check's
`strings.HasPrefix(rel, "..")` even inside the root). -/
abbrev SafeComp (c : List Char) : Prop := CleanComp c ∧ ¬ (['.', '.'] <+: c)

/-- The absolute path with the given elements. -/
def mkAbs (comps : List (List Char)) : String := String.mk ('/' :: joinComps comps)

/-- The relative path with the given elements. -/
def mkRel (comps : List (List Char)) : String := String.mk (joinComps comps)

/-! # Theorems -/

/-! ## Streaming merge: basic facts -/

theorem mergeInto_index (e d : ToolCall) : (mergeInto e d).index = e.index := by
  unfold mergeInto
  dsimp only
  split_ifs <;> rfl

theorem mergeInto_id (e d : ToolCall) (h : e.id ≠ "") : (mergeInto e d).id = e.id := by
  unfold mergeInto
  dsimp only
  split_ifs <;> simp_all

theorem mergeInto_arguments (e d : ToolCall) :
    (mergeInto e d).function.arguments = e.function.arguments ++ d.function.arguments := by
  unfold mergeInto
  dsimp only
  split_ifs <;> simp_all [String.append_empty]

theorem findIdxById_lt_length {l : List ToolCall} {id0 : String} {i : Nat}
    (h : findIdxById l id0 = some i) : i < l.length := by
  induction l generalizing i with
  | nil => simp [findIdxById] at h
  | cons tc rest ih =>
    by_cases htc : tc.id = id0
    · simp [findIdxById, htc] at h
      simp [List.length_cons]
      omega
    · simp [findIdxById, htc] at h
      obtain ⟨j, hj, hji⟩ := h
      have := ih hj
      simp [List.length_cons]
      omega

theorem idxTarget_lt_length {l : List ToolCall} {d : ToolCall} {i : Nat}
    (h : idxTarget l d = some i) : i < l.length := by
  unfold idxTarget at h
  split at h
  · split at h
    · rename_i hc _
      simp at h
      omega
    · simp at h
  · simp at h

theorem idTarget_lt_length {l : List ToolCall} {d : ToolCall} {i : Nat}
    (h : idTarget l d = some i) : i < l.length := by
  unfold idTarget at h
  split at h
  · exact findIdxById_lt_length h
  · simp at h

theorem mergeDelta_singleton (e d : ToolCall) (hidx : e.index = 0)
    (h : d.index = 0 ∨ (d.id = e.id ∧ e.id ≠ "")) : mergeDelta [e] d = [mergeInto e d] := by
  by_cases hd0 : d.index = 0
  · have hit : idxTarget [e] d = some 0 := by
      unfold idxTarget
      rw [dif_pos (by simp [hd0])]
      simp [hd0, hidx]
    simp [mergeDelta, hit, List.getD]
  · have hne : idxTarget [e] d = none := by
      unfold idxTarget
      split
      · rename_i hc
        exfalso
        apply hd0
        have h1 : d.index.toNat < 1 := by simpa using hc.2
        have h2 : 0 ≤ d.index := hc.1
        omega
      · rfl
    have hdid : d.id = e.id := by tauto
    have hid : e.id ≠ "" := by tauto
    have hfind : findIdxById [e] d.id = some 0 := by
      simp [findIdxById, hdid]
    have hit : idTarget [e] d = some 0 := by
      unfold idTarget
      rw [if_pos (by rw [hdid]; exact hid), hfind]
    simp [mergeDelta, hne, hit, List.getD]

/-! ## Streaming loop: relation between the run and its final state -/

theorem runEvents_eq_finalize (cb : String → Option String) :
    ∀ (evs : List StreamEvent) (acc a : StreamAcc),
    streamFinalAcc cb acc evs = some a → runEvents cb acc evs = finalizeStream a := by
  intro evs
  induction evs with
  | nil =>
    intro acc a h
    simp [streamFinalAcc] at h
    simp [runEvents, h]
  | cons ev rest ih =>
    intro acc a h
    cases ev with
    | skipped =>
      simp [streamFinalAcc] at h
      simp [runEvents]
      exact ih acc a h
    | done =>
      simp [streamFinalAcc] at h
      simp [runEvents, h]
    | readError m =>
      simp [streamFinalAcc] at h
    | line choices =>
      cases choices with
      | nil =>
        simp [streamFinalAcc] at h
        simp [runEvents]
        exact ih acc a h
      | cons c cs =>
        cases hp : processChoice cb acc c with
        | error e =>
          rw [streamFinalAcc, hp] at h
          exact absurd h (by simp)
        | ok acc1 =>
          rw [streamFinalAcc, hp] at h
          rw [runEvents, hp]
          exact ih acc1 a h

theorem runEvents_err_empty (cb : String → Option String) :
    ∀ (evs : List StreamEvent) (acc : StreamAcc),
    (runEvents cb acc evs).err.isSome →
    (runEvents cb acc evs).text = "" ∧ (runEvents cb acc evs).toolCalls = [] := by
  intro evs
  induction evs with
  | nil =>
    intro acc h
    simp [runEvents, finalizeStream] at h
    split at h <;> simp_all
  | cons ev rest ih =>
    intro acc h
    cases ev with
    | skipped =>
      rw [runEvents] at h ⊢
      exact ih acc h
    | done =>
      rw [runEvents] at h ⊢
      simp [finalizeStream] at h ⊢
      split at h <;> simp_all
    | readError m =>
      simp [runEvents]
    | line choices =>
      cases choices with
      | nil =>
        rw [runEvents] at h ⊢
        exact ih acc h
      | cons c cs =>
        cases hp : processChoice cb acc c with
        | error e =>
          rw [runEvents, hp]
          simp
        | ok acc1 =>
          rw [runEvents, hp] at h ⊢
          exact ih acc1 h

theorem mem_completeFilter {tc : ToolCall} {l : List ToolCall}
    (h : tc ∈ completeFilter l) : tc.id ≠ "" ∧ tc.function.name ≠ "" := by
  unfold completeFilter at h
  rw [List.mem_filter] at h
  simpa using h.2

/-! ## Claim C1 -/

/-- C1: at stream end, if the last observed finish reason is `"tool_calls"`
then every entry of the returned tool-call list has a non-empty id and a
non-empty name; for every other finish reason the returned tool-call list
is empty regardless of what fragments were accumulated in the buffer. -/
theorem claim1_completeness_filter (cb : String → Option String)
    (evs : List StreamEvent) (a : StreamAcc)
    (hend : streamFinalAcc cb StreamAcc.init evs = some a) :
    chatCompletionStream cb evs = finalizeStream a ∧
    (∀ tc ∈ (chatCompletionStream cb evs).toolCalls, tc.id ≠ "" ∧ tc.function.name ≠ "") ∧
    (a.finishReason ≠ "tool_calls" → (chatCompletionStream cb evs).toolCalls = []) := by
  have he : chatCompletionStream cb evs = finalizeStream a :=
    runEvents_eq_finalize cb evs StreamAcc.init a hend
  refine ⟨he, ?_, ?_⟩
  · rw [he]
    unfold finalizeStream
    split
    · intro tc htc
      exact mem_completeFilter htc
    · intro tc htc
      simp at htc
  · intro hne
    rw [he]
    simp [finalizeStream, hne]

theorem claim1_witness :
    streamFinalAcc (fun _ => none) StreamAcc.init
        [StreamEvent.line [⟨⟨"", [⟨0, "c1", "function", ⟨"read_file", "\x7b\x7d"⟩⟩]⟩, "tool_calls"⟩],
         StreamEvent.done] =
      some ⟨"", [⟨0, "c1", "function", ⟨"read_file", "\x7b\x7d"⟩⟩], "tool_calls"⟩ ∧
    (∀ tc ∈ (chatCompletionStream (fun _ => none)
        [StreamEvent.line [⟨⟨"", [⟨0, "c1", "function", ⟨"read_file", "\x7b\x7d"⟩⟩]⟩, "tool_calls"⟩],
         StreamEvent.done]).toolCalls, tc.id ≠ "" ∧ tc.function.name ≠ "") :=
  ⟨rfl, (claim1_completeness_filter (fun _ => none)
    [StreamEvent.line [⟨⟨"", [⟨0, "c1", "function", ⟨"read_file", "\x7b\x7d"⟩⟩]⟩, "tool_calls"⟩],
     StreamEvent.done]
    ⟨"", [⟨0, "c1", "function", ⟨"read_file", "\x7b\x7d"⟩⟩], "tool_calls"⟩ rfl).2.1⟩

/-! ## Claim C9 -/

/-- C9 (amended): when the streaming call ends with a transport-level read
error or a callback-reported failure, the returned triple carries the error
together with an empty text and no tool calls; the text accumulated so far
is not returned to the caller (it reached the user only through the
per-chunk callback invocations already made). -/
theorem claim9_error_discards_text (cb : String → Option String) (evs : List StreamEvent)
    (h : (chatCompletionStream cb evs).err.isSome = true) :
    (chatCompletionStream cb evs).text = "" ∧ (chatCompletionStream cb evs).toolCalls = [] :=
  runEvents_err_empty cb evs StreamAcc.init h

theorem claim9_witness :
    (chatCompletionStream (fun _ => none)
        [StreamEvent.line [⟨⟨"Hel", []⟩, ""⟩], StreamEvent.readError "conn reset"]).err.isSome
      = true ∧
    (chatCompletionStream (fun _ => none)
        [StreamEvent.line [⟨⟨"Hel", []⟩, ""⟩], StreamEvent.readError "conn reset"]).text = "" :=
  ⟨rfl, (claim9_error_discards_text (fun _ => none)
    [StreamEvent.line [⟨⟨"Hel", []⟩, ""⟩], StreamEvent.readError "conn reset"] rfl).1⟩

/-- C9 counterexample: on a stream that accumulated the text `"Hel"` and
then hit a read error, the call returns empty text alongside the error (the
same prefix without the error returns text `"Hel"`); a callback failure
behaves the same way. The accumulated text is therefore discarded, not
surfaced to the caller. -/
theorem claim9_counterexample :
    chatCompletionStream (fun _ => none)
        [StreamEvent.line [⟨⟨"Hel", []⟩, ""⟩], StreamEvent.readError "conn reset"] =
      ⟨"", [], some "error reading stream: conn reset"⟩ ∧
    chatCompletionStream (fun _ => none) [StreamEvent.line [⟨⟨"Hel", []⟩, ""⟩]] =
      ⟨"Hel", [], none⟩ ∧
    chatCompletionStream (fun _ => some "cb fail")
        [StreamEvent.line [⟨⟨"Hel", []⟩, ""⟩]] = ⟨"", [], some "cb fail"⟩ ∧
    "Hel" ≠ "" :=
  ⟨rfl, rfl, rfl, by decide⟩

/-! ## Claim C2 -/

theorem mergeInto_argFrag (e : ToolCall) (i : Int) (c : String) :
    mergeInto e (argFrag i c) =
      { e with function := { e.function with arguments := e.function.arguments ++ c } } := by
  obtain ⟨ei, eid, et, en, ea⟩ := e
  unfold mergeInto argFrag
  dsimp only
  split_ifs <;> simp_all [String.append_empty]

theorem foldl_argFrags (cs : List String) : ∀ (e : ToolCall), e.index = 0 →
    List.foldl mergeDelta [e] (cs.map (argFrag 0)) =
      [{ e with function := { e.function with
          arguments := e.function.arguments ++ concatChunks cs } }] := by
  induction cs with
  | nil =>
    intro e he
    simp [concatChunks, String.append_empty]
  | cons c cs ih =>
    intro e he
    simp only [List.map_cons, List.foldl_cons]
    rw [mergeDelta_singleton e _ he (Or.inl rfl), mergeInto_argFrag]
    rw [ih _ (by simpa using he)]
    simp [concatChunks, String.append_assoc]

/-- C2: when a tool call's arguments arrive split into chunks across
successive deltas addressing the same entry, each incoming fragment is
appended (never overwritten) onto the accumulated arguments buffer, so the
final arguments equal the concatenation of the chunks in arrival order and
coincide with the same arguments delivered as a single chunk. -/
theorem claim2_arguments_append :
    (∀ e d : ToolCall, (mergeInto e d).function.arguments =
        e.function.arguments ++ d.function.arguments) ∧
    (∀ (e : ToolCall) (cs : List String), e.index = 0 →
      List.foldl mergeDelta [e] (cs.map (argFrag 0)) =
        [{ e with function := { e.function with
            arguments := e.function.arguments ++ concatChunks cs } }] ∧
      List.foldl mergeDelta [e] (cs.map (argFrag 0)) =
        List.foldl mergeDelta [e] [argFrag 0 (concatChunks cs)]) := by
  refine ⟨mergeInto_arguments, ?_⟩
  intro e cs he
  refine ⟨foldl_argFrags cs e he, ?_⟩
  rw [foldl_argFrags cs e he]
  simp only [List.foldl_cons, List.foldl_nil]
  rw [mergeDelta_singleton e _ he (Or.inl rfl), mergeInto_argFrag]

theorem claim2_witness :
    ((⟨0, "c1", "function", ⟨"read_file", ""⟩⟩ : ToolCall).index = 0) ∧
    List.foldl mergeDelta [(⟨0, "c1", "function", ⟨"read_file", ""⟩⟩ : ToolCall)]
        (["\x7b\"pa", "th\" : 1\x7d"].map (argFrag 0)) =
      [⟨0, "c1", "function", ⟨"read_file", "\x7b\"pa" ++ "th\" : 1\x7d"⟩⟩] ∧
    List.foldl mergeDelta [(⟨0, "c1", "function", ⟨"read_file", ""⟩⟩ : ToolCall)]
        (["\x7b\"pa", "th\" : 1\x7d"].map (argFrag 0)) =
      List.foldl mergeDelta [(⟨0, "c1", "function", ⟨"read_file", ""⟩⟩ : ToolCall)]
        [argFrag 0 (concatChunks ["\x7b\"pa", "th\" : 1\x7d"])] := by
  refine ⟨rfl, ?_, (claim2_arguments_append.2 _ ["\x7b\"pa", "th\" : 1\x7d"] rfl).2⟩
  have h := (claim2_arguments_append.2
    (⟨0, "c1", "function", ⟨"read_file", ""⟩⟩ : ToolCall) ["\x7b\"pa", "th\" : 1\x7d"] rfl).1
  simpa using h

/-! ## Claim C3 -/

/-- C3: the merge targets an in-bounds position whose entry carries the
fragment's index first, an existing entry with the fragment's non-empty id
second, and introduces a new entry only when neither matches; hence a
sequence of deltas addressing one logical call alternately by valid index
and by id converges to exactly one ToolCall entry. -/
theorem claim3_index_id_convergence :
    (∀ (tcs : List ToolCall) (d : ToolCall) (i : Nat), idxTarget tcs d = some i →
      mergeDelta tcs d = tcs.set i (mergeInto (tcs.getD i (placeholder 0)) d) ∧
      (mergeDelta tcs d).length = tcs.length) ∧
    (∀ (tcs : List ToolCall) (d : ToolCall) (i : Nat), idxTarget tcs d = none →
      idTarget tcs d = some i →
      mergeDelta tcs d = tcs.set i (mergeInto (tcs.getD i (placeholder 0)) d) ∧
      (mergeDelta tcs d).length = tcs.length) ∧
    (∀ (tcs : List ToolCall) (d : ToolCall), idxTarget tcs d = none →
      idTarget tcs d = none → mergeDelta tcs d = insertNew tcs d) ∧
    (∀ (e : ToolCall) (ds : List ToolCall), e.index = 0 → e.id ≠ "" →
      (∀ d ∈ ds, d.index = 0 ∨ d.id = e.id) →
      ∃ e1, List.foldl mergeDelta [e] ds = [e1] ∧ e1.index = 0 ∧ e1.id = e.id) := by
  refine ⟨?_, ?_, ?_, ?_⟩
  · intro tcs d i h
    unfold mergeDelta
    rw [h]
    exact ⟨rfl, List.length_set ..⟩
  · intro tcs d i h1 h2
    unfold mergeDelta
    rw [h1, h2]
    exact ⟨rfl, List.length_set ..⟩
  · intro tcs d h1 h2
    unfold mergeDelta
    rw [h1, h2]
  · intro e ds
    induction ds generalizing e with
    | nil =>
      intro he hid _
      exact ⟨e, rfl, he, rfl⟩
    | cons d ds ih =>
      intro he hid hds
      have hd := hds d (by simp)
      have hsingle : mergeDelta [e] d = [mergeInto e d] := by
        rcases hd with hd | hd
        · exact mergeDelta_singleton e d he (Or.inl hd)
        · exact mergeDelta_singleton e d he (Or.inr ⟨hd, hid⟩)
      have hidx1 : (mergeInto e d).index = 0 := by rw [mergeInto_index, he]
      have hid1 : (mergeInto e d).id = e.id := mergeInto_id e d hid
      obtain ⟨e1, hfold, h1, h2⟩ := ih (mergeInto e d) hidx1 (by rw [hid1]; exact hid)
        (by intro d1 hd1; rw [hid1]; exact hds d1 (by simp [hd1]))
      refine ⟨e1, ?_, h1, by rw [h2, hid1]⟩
      rw [List.foldl_cons, hsingle]
      exact hfold

theorem claim3_witness :
    (idxTarget [(⟨0, "c1", "function", ⟨"f", "a"⟩⟩ : ToolCall)] (argFrag 0 "x") = some 0 ∧
      (mergeDelta [(⟨0, "c1", "function", ⟨"f", "a"⟩⟩ : ToolCall)] (argFrag 0 "x")).length = 1) ∧
    ((⟨0, "c1", "function", ⟨"f", "a"⟩⟩ : ToolCall).index = 0 ∧
      (⟨0, "c1", "function", ⟨"f", "a"⟩⟩ : ToolCall).id ≠ "" ∧
      ∃ e1, List.foldl mergeDelta [(⟨0, "c1", "function", ⟨"f", "a"⟩⟩ : ToolCall)]
          [⟨-1, "c1", "", ⟨"", "b"⟩⟩, ⟨0, "", "", ⟨"", "c"⟩⟩] = [e1] ∧
        e1.index = 0 ∧ e1.id = "c1") := by
  constructor
  · exact ⟨rfl, (claim3_index_id_convergence.1
      [(⟨0, "c1", "function", ⟨"f", "a"⟩⟩ : ToolCall)] (argFrag 0 "x") 0 rfl).2⟩
  · refine ⟨rfl, by decide, ?_⟩
    exact claim3_index_id_convergence.2.2.2 ⟨0, "c1", "function", ⟨"f", "a"⟩⟩
      [⟨-1, "c1", "", ⟨"", "b"⟩⟩, ⟨0, "", "", ⟨"", "c"⟩⟩] rfl (by decide) (by decide)

/-! ## Claim C10 -/

theorem get?_set_self (l : List ToolCall) (i : Nat) (a : ToolCall) (h : i < l.length) :
    (l.set i a).get? i = some a := by
  induction l generalizing i with
  | nil => simp at h
  | cons x xs ih =>
    cases i with
    | zero => rfl
    | succ n => exact ih n (by simpa using h)

theorem get?_set_ne (l : List ToolCall) (i j : Nat) (a : ToolCall) (h : i ≠ j) :
    (l.set i a).get? j = l.get? j := by
  induction l generalizing i j with
  | nil => simp
  | cons x xs ih =>
    cases i with
    | zero =>
      cases j with
      | zero => exact absurd rfl h
      | succ m => rfl
    | succ n =>
      cases j with
      | zero => rfl
      | succ m => exact ih n m (by omega)

theorem set_oob (l : List ToolCall) (i : Nat) (a : ToolCall) (h : l.length ≤ i) :
    l.set i a = l := by
  induction l generalizing i with
  | nil => rfl
  | cons x xs ih =>
    cases i with
    | zero => simp at h
    | succ n => simp [List.set, ih n (by simpa using h)]

theorem posConsistent_set {tcs : List ToolCall} {x : ToolCall} {j : Nat}
    (hp : PosConsistent tcs) (hx : x.index = (j : Int)) :
    PosConsistent (tcs.set j x) := by
  intro i tc h
  by_cases hij : j = i
  · subst hij
    by_cases hj : j < tcs.length
    · rw [get?_set_self tcs j x hj] at h
      cases h
      exact hx
    · rw [set_oob tcs j x (by omega)] at h
      exact hp j tc h
  · rw [get?_set_ne tcs j i x hij] at h
    exact hp i tc h

theorem posConsistent_growTo {tcs : List ToolCall} (hp : PosConsistent tcs) (t : Nat) :
    PosConsistent (growTo tcs t) := by
  intro i tc h
  unfold growTo at h
  by_cases hi : i < tcs.length
  · rw [List.get?_append hi] at h
    exact hp i tc h
  · rw [List.get?_append_right (by omega)] at h
    rw [List.get?_map] at h
    cases hr : (List.range (t + 1 - tcs.length)).get? (i - tcs.length) with
    | none => rw [hr] at h; simp at h
    | some m =>
      rw [hr] at h
      have hm : m = i - tcs.length := by
        have h1 := List.get?_eq_some.mp hr
        obtain ⟨hlt, hget⟩ := h1
        rw [List.get_range] at hget
        omega
      simp at h
      rw [← h]
      unfold placeholder
      simp [hm]
      omega

theorem normalizeIndex_nonneg (tcs : List ToolCall) (d : ToolCall) :
    0 ≤ (normalizeIndex tcs d).index := by
  unfold normalizeIndex
  split_ifs with h1 h2
  · simp
  · simp
  · push_neg at h2
    exact h2

theorem fixIndexAt_of_posConsistent {l : List ToolCall} (hp : PosConsistent l) (i : Nat) :
    fixIndexAt l i = l := by
  unfold fixIndexAt
  cases hg : l.get? i with
  | none => rfl
  | some e =>
    dsimp only
    rw [if_neg (by simp [hp i e hg])]

theorem growTo_length (tcs : List ToolCall) (t : Nat) :
    (growTo tcs t).length = max tcs.length (t + 1) := by
  simp [growTo]
  omega

theorem posConsistent_insertNew {tcs : List ToolCall} (hp : PosConsistent tcs)
    (d : ToolCall) : PosConsistent (insertNew tcs d) := by
  unfold insertNew
  have hnn : 0 ≤ (normalizeIndex tcs d).index := normalizeIndex_nonneg tcs d
  have hlt : (normalizeIndex tcs d).index.toNat <
      (growTo tcs (normalizeIndex tcs d).index.toNat).length := by
    rw [growTo_length]
    omega
  rw [if_pos hlt]
  have hset : PosConsistent
      ((growTo tcs (normalizeIndex tcs d).index.toNat).set
        (normalizeIndex tcs d).index.toNat (normalizeIndex tcs d)) :=
    posConsistent_set (posConsistent_growTo hp _) (Int.toNat_of_nonneg hnn).symm
  rw [fixIndexAt_of_posConsistent hset]
  exact hset

theorem getD_of_get? {l : List ToolCall} {i : Nat} {e dflt : ToolCall}
    (h : l.get? i = some e) : l.getD i dflt = e := by
  unfold List.getD
  rw [h]
  rfl

theorem posConsistent_mergeDelta {tcs : List ToolCall} (hp : PosConsistent tcs)
    (d : ToolCall) : PosConsistent (mergeDelta tcs d) := by
  unfold mergeDelta
  cases h1 : idxTarget tcs d with
  | some i =>
    have hi := idxTarget_lt_length h1
    obtain ⟨e, he⟩ : ∃ e, tcs.get? i = some e := by
      rw [List.get?_eq_get hi]
      exact ⟨_, rfl⟩
    apply posConsistent_set hp
    rw [getD_of_get? he, mergeInto_index]
    exact hp i e he
  | none =>
    cases h2 : idTarget tcs d with
    | some i =>
      have hi := idTarget_lt_length h2
      obtain ⟨e, he⟩ : ∃ e, tcs.get? i = some e := by
        rw [List.get?_eq_get hi]
        exact ⟨_, rfl⟩
      apply posConsistent_set hp
      rw [getD_of_get? he, mergeInto_index]
      exact hp i e he
    | none => exact posConsistent_insertNew hp d

theorem posConsistent_foldl {tcs : List ToolCall} (hp : PosConsistent tcs)
    (ds : List ToolCall) : PosConsistent (List.foldl mergeDelta tcs ds) := by
  induction ds generalizing tcs with
  | nil => exact hp
  | cons d ds ih => exact ih (posConsistent_mergeDelta hp d)

theorem posConsistent_processChoice {cb : String → Option String}
    {acc : StreamAcc} {choice : StreamChoice} {acc1 : StreamAcc}
    (hp : PosConsistent acc.toolCalls) (hfr : choice.finishReason ≠ "tool_calls")
    (h : processChoice cb acc choice = .ok acc1) : PosConsistent acc1.toolCalls := by
  unfold processChoice at h
  dsimp only at h
  have hstep : ∀ acc3 : StreamAcc, acc3.toolCalls = acc.toolCalls →
      acc3.finishReason = choice.finishReason →
      PosConsistent (stepToolsAndFilter acc3 choice).toolCalls := by
    intro acc3 htcs hfin
    unfold stepToolsAndFilter
    rw [if_neg (by simp [hfin, hfr])]
    dsimp only
    rw [htcs]
    exact posConsistent_foldl hp choice.delta.toolCalls
  by_cases hc : choice.delta.content ≠ ""
  · rw [if_pos hc] at h
    cases hcb : cb choice.delta.content with
    | some e => rw [hcb] at h; cases h
    | none =>
      rw [hcb] at h
      cases h
      exact hstep _ rfl rfl
  · rw [if_neg hc] at h
    cases h
    exact hstep _ rfl rfl

theorem posConsistent_streamFinalAcc (cb : String → Option String) :
    ∀ (evs : List StreamEvent) (acc a : StreamAcc),
    PosConsistent acc.toolCalls → (∀ ev ∈ evs, eventNoFinishTC ev) →
    streamFinalAcc cb acc evs = some a → PosConsistent a.toolCalls := by
  intro evs
  induction evs with
  | nil =>
    intro acc a hp _ h
    simp [streamFinalAcc] at h
    rwa [← h]
  | cons ev rest ih =>
    intro acc a hp hall h
    cases ev with
    | skipped =>
      exact ih acc a hp (fun e he => hall e (by simp [he]))
        (by simpa [streamFinalAcc] using h)
    | done =>
      simp [streamFinalAcc] at h
      rwa [← h]
    | readError m => simp [streamFinalAcc] at h
    | line choices =>
      cases choices with
      | nil =>
        exact ih acc a hp (fun e he => hall e (by simp [he]))
          (by simpa [streamFinalAcc] using h)
      | cons c cs =>
        have hfr : c.finishReason ≠ "tool_calls" := by
          have hl := hall (.line (c :: cs)) (by simp)
          simpa [eventNoFinishTC] using hl
        cases hpc : processChoice cb acc c with
        | error e =>
          rw [streamFinalAcc, hpc] at h
          exact absurd h (by simp)
        | ok acc1 =>
          rw [streamFinalAcc, hpc] at h
          exact ih acc1 a (posConsistent_processChoice hp hfr hpc)
            (fun e he => hall e (by simp [he])) h

/-- C10: before any delta carrying finish reason `"tool_calls"` has been
processed, the in-progress tool-call list is positionally consistent: the
entry at position `i` carries index `i` (placeholders are created with
their position as index, new fragments get their index forced to their
position, and merging never changes an entry's index). -/
theorem claim10_positional_consistency :
    (∀ i : Nat, (placeholder i).index = (i : Int)) ∧
    (∀ e d : ToolCall, (mergeInto e d).index = e.index) ∧
    (∀ (cb : String → Option String) (evs : List StreamEvent) (a : StreamAcc),
      (∀ ev ∈ evs, eventNoFinishTC ev) →
      streamFinalAcc cb StreamAcc.init evs = some a →
      PosConsistent a.toolCalls) := by
  refine ⟨fun i => rfl, mergeInto_index, ?_⟩
  intro cb evs a hall h
  exact posConsistent_streamFinalAcc cb evs StreamAcc.init a
    (by intro i tc hg; simp [StreamAcc.init] at hg) hall h

theorem claim10_witness :
    streamFinalAcc (fun _ => none) StreamAcc.init
        [StreamEvent.line [⟨⟨"", [⟨2, "c9", "function", ⟨"t", ""⟩⟩]⟩, ""⟩]] =
      some ⟨"", [⟨0, "", "", ⟨"", ""⟩⟩, ⟨1, "", "", ⟨"", ""⟩⟩,
        ⟨2, "c9", "function", ⟨"t", ""⟩⟩], ""⟩ ∧
    PosConsistent [⟨0, "", "", ⟨"", ""⟩⟩, ⟨1, "", "", ⟨"", ""⟩⟩,
      ⟨2, "c9", "function", ⟨"t", ""⟩⟩] := by
  constructor
  · rfl
  · exact claim10_positional_consistency.2.2 (fun _ => none)
      [StreamEvent.line [⟨⟨"", [⟨2, "c9", "function", ⟨"t", ""⟩⟩]⟩, ""⟩]]
      ⟨"", [⟨0, "", "", ⟨"", ""⟩⟩, ⟨1, "", "", ⟨"", ""⟩⟩,
        ⟨2, "c9", "function", ⟨"t", ""⟩⟩], ""⟩
      (by intro ev hev
          simp only [List.mem_singleton] at hev
          subst hev
          simp [eventNoFinishTC])
      rfl

/-! ## Claim C4 -/

theorem chatWithToolsAux_max (respond : List Message → Except String (List Message))
    (parse : String → Option Args) (exec : String → Args → Except String String)
    (H : ∀ msgs, ∃ m rest msgs2, respond msgs = .ok (m :: rest) ∧
        0 < m.toolCalls.length ∧
        execToolCalls parse exec (msgs ++ [m]) m.toolCalls = .ok msgs2) :
    ∀ (fuel : Nat) (msgs : List Message),
      chatWithToolsAux respond parse exec msgs fuel =
        ⟨.error "maximum iterations reached - possible infinite tool call loop", fuel⟩ := by
  intro fuel
  induction fuel with
  | zero => intro msgs; rfl
  | succ n ih =>
    intro msgs
    obtain ⟨m, rest, msgs2, hr, htc, he⟩ := H msgs
    rw [chatWithToolsAux, hr]
    dsimp only
    rw [if_pos htc, he]
    dsimp only
    rw [ih msgs2]

theorem chatWithToolsStreamAux_max
    (respondS : List Message → Except String (String × List ToolCall))
    (parse : String → Option Args) (exec : String → Args → Except String String)
    (H : ∀ msgs, ∃ txt tcs msgs2, respondS msgs = .ok (txt, tcs) ∧
        0 < tcs.length ∧
        execToolCalls parse exec (msgs ++ [⟨"assistant", txt, tcs, "", ""⟩]) tcs =
          .ok msgs2) :
    ∀ (fuel : Nat) (msgs : List Message),
      chatWithToolsStreamAux respondS parse exec msgs fuel =
        ⟨.error "maximum iterations reached - possible infinite tool call loop", fuel⟩ := by
  intro fuel
  induction fuel with
  | zero => intro msgs; rfl
  | succ n ih =>
    intro msgs
    obtain ⟨txt, tcs, msgs2, hr, htc, he⟩ := H msgs
    rw [chatWithToolsStreamAux, hr]
    dsimp only
    rw [if_pos htc, he]
    dsimp only
    rw [ih msgs2]

/-- C4: in both the non-streaming and the streaming variant of the
tool-calling loop, a model that returns tool calls on every round (and whose
arguments decode and tools execute) makes the turn fail with the distinct
maximum-iterations error after exactly 10 model calls — not before and not
after. -/
theorem claim4_iteration_cap
    (respond : List Message → Except String (List Message))
    (respondS : List Message → Except String (String × List ToolCall))
    (parse : String → Option Args) (exec : String → Args → Except String String)
    (msgs msgsS : List Message)
    (H : ∀ ms, ∃ m rest msgs2, respond ms = .ok (m :: rest) ∧
        0 < m.toolCalls.length ∧
        execToolCalls parse exec (ms ++ [m]) m.toolCalls = .ok msgs2)
    (HS : ∀ ms, ∃ txt tcs msgs2, respondS ms = .ok (txt, tcs) ∧
        0 < tcs.length ∧
        execToolCalls parse exec (ms ++ [⟨"assistant", txt, tcs, "", ""⟩]) tcs =
          .ok msgs2) :
    ChatWithTools respond parse exec msgs =
      ⟨.error "maximum iterations reached - possible infinite tool call loop", 10⟩ ∧
    ChatWithToolsStream respondS parse exec msgsS =
      ⟨.error "maximum iterations reached - possible infinite tool call loop", 10⟩ :=
  ⟨chatWithToolsAux_max respond parse exec H 10 msgs,
   chatWithToolsStreamAux_max respondS parse exec HS 10 msgsS⟩

theorem claim4_witness :
    ChatWithTools
        (fun _ => .ok [⟨"assistant", "", [⟨0, "id1", "function", ⟨"t", "\x7b\x7d"⟩⟩], "", ""⟩])
        (fun _ => some []) (fun _ _ => .ok "r") [] =
      ⟨.error "maximum iterations reached - possible infinite tool call loop", 10⟩ ∧
    ChatWithToolsStream
        (fun _ => .ok ("", [⟨0, "id1", "function", ⟨"t", "\x7b\x7d"⟩⟩]))
        (fun _ => some []) (fun _ _ => .ok "r") [] =
      ⟨.error "maximum iterations reached - possible infinite tool call loop", 10⟩ := by
  refine claim4_iteration_cap
    (fun _ => .ok [⟨"assistant", "", [⟨0, "id1", "function", ⟨"t", "\x7b\x7d"⟩⟩], "", ""⟩])
    (fun _ => .ok ("", [⟨0, "id1", "function", ⟨"t", "\x7b\x7d"⟩⟩]))
    (fun _ => some []) (fun _ _ => .ok "r") [] [] ?_ ?_
  · intro ms
    exact ⟨_, _, _, rfl, by decide, rfl⟩
  · intro ms
    exact ⟨_, _, _, rfl, by decide, rfl⟩

/-! ## Claim C6 -/

/-- C6: when the tool executor fails on a dispatched call, the turn does
not abort: the error's message prefixed with `Error: ` is substituted as
the tool's output, a normal (non-fatal) tool-role message carrying the
call's id and name is appended to the history, and processing continues
with the remaining tool calls of the round. -/
theorem claim6_executor_error_graceful
    (parse : String → Option Args) (exec : String → Args → Except String String)
    (messages : List Message) (tc : ToolCall) (rest : List ToolCall)
    (args : Args) (e : String)
    (hp : parse tc.function.arguments = some args)
    (hx : exec tc.function.name args = .error e) :
    execToolCalls parse exec messages (tc :: rest) =
      execToolCalls parse exec
        (messages ++ [⟨"tool", "Error: " ++ e, [], tc.id, tc.function.name⟩]) rest := by
  rw [execToolCalls, hp]
  dsimp only
  rw [hx]

theorem claim6_witness :
    execToolCalls (fun _ => some []) (fun _ _ => .error "boom") []
        [⟨0, "id1", "function", ⟨"t", "\x7b\x7d"⟩⟩] =
      execToolCalls (fun _ => some []) (fun _ _ => .error "boom")
        [⟨"tool", "Error: " ++ "boom", [], "id1", "t"⟩] [] ∧
    execToolCalls (fun _ => some []) (fun _ _ => .error "boom")
        [⟨"tool", "Error: " ++ "boom", [], "id1", "t"⟩] [] =
      .ok [⟨"tool", "Error: " ++ "boom", [], "id1", "t"⟩] :=
  ⟨claim6_executor_error_graceful (fun _ => some []) (fun _ _ => .error "boom") []
    ⟨0, "id1", "function", ⟨"t", "\x7b\x7d"⟩⟩ [] [] "boom" rfl rfl, rfl⟩

/-! ## Claim C7 -/

/-- C7 (amended): an empty input line at the confirmation prompt counts as
affirmative; in general an input is affirmative exactly when, after
lowercasing and trimming whitespace, it is empty or equals `"yes"` or
`"y"` — so a whitespace-only line also proceeds, not only the literal
answers. -/
theorem claim7_confirmation_default :
    confirmAffirmative "" = true ∧
    (∀ s : String, confirmAffirmative s = true ↔
      (goTrimSpace (goToLower s) = "" ∨ goTrimSpace (goToLower s) = "yes" ∨
       goTrimSpace (goToLower s) = "y")) := by
  refine ⟨rfl, ?_⟩
  intro s
  by_cases h1 : goTrimSpace (goToLower s) = ""
  · simp [confirmAffirmative, h1]
  · simp only [confirmAffirmative, h1, if_false]
    constructor
    · intro h
      rcases Bool.or_eq_true_iff.mp h with h2 | h2
      · exact Or.inr (Or.inl (by simpa using h2))
      · exact Or.inr (Or.inr (by simpa using h2))
    · intro h
      rcases h with h2 | h2 | h2
      · exact h2.elim
      · simp [h2]
      · simp [h2]

theorem claim7_witness : confirmAffirmative "YES" = true :=
  (claim7_confirmation_default.2 "YES").mpr (by decide)

/-- C7 counterexample: the input `" "` is a non-empty response that after
trimming equals neither `"y"` nor `"yes"`, yet the confirmation treats it
as affirmative (it trims to the empty string, which defaults to yes). -/
theorem claim7_counterexample :
    confirmAffirmative " " = true ∧ " " ≠ "" ∧
    goTrimSpace (goToLower " ") = "" ∧
    goTrimSpace " " ≠ "y" ∧ goTrimSpace " " ≠ "yes" :=
  ⟨rfl, by decide, rfl, by decide, by decide⟩

/-! ## Claim C5: path lemmas -/

theorem splitSlash_no_slash : ∀ (cs : List Char), ∀ g ∈ splitSlash cs, '/' ∉ g := by
  intro cs
  induction cs with
  | nil =>
    intro g hg
    simp [splitSlash] at hg
    simp [hg]
  | cons c rest ih =>
    intro g hg
    by_cases hc : c = '/'
    · simp only [splitSlash, if_pos hc] at hg
      rcases List.mem_cons.mp hg with h | h
      · simp [h]
      · exact ih g h
    · simp only [splitSlash, if_neg hc] at hg
      cases hsp : splitSlash rest with
      | nil =>
        rw [hsp] at hg
        simp at hg
        subst hg
        simp
        exact fun h => hc h.symm
      | cons g0 gs =>
        rw [hsp] at hg
        rcases List.mem_cons.mp hg with h | h
        · subst h
          have hg0 : '/' ∉ g0 := ih g0 (by rw [hsp]; simp)
          simp [hg0]
          exact fun h => hc h.symm
        · exact ih g (by rw [hsp]; simp [h])

theorem splitSlash_append_slash :
    ∀ (a b : List Char), '/' ∉ a → splitSlash (a ++ '/' :: b) = a :: splitSlash b := by
  intro a
  induction a with
  | nil =>
    intro b _
    simp [splitSlash]
  | cons c a1 ih =>
    intro b h
    have hc : c ≠ '/' := by simp at h; tauto
    have ha1 : '/' ∉ a1 := by simp at h; tauto
    simp only [List.cons_append, splitSlash, if_neg hc, List.append_eq]
    rw [ih b ha1]

theorem splitSlash_of_no_slash : ∀ (c : List Char), '/' ∉ c → splitSlash c = [c] := by
  intro c
  induction c with
  | nil => intro _; rfl
  | cons c0 c1 ih =>
    intro h
    have hc0 : c0 ≠ '/' := by simp at h; tauto
    have hc1 : '/' ∉ c1 := by simp at h; tauto
    simp only [splitSlash, if_neg hc0]
    rw [ih hc1]

theorem splitSlash_joinComps :
    ∀ (comps : List (List Char)), comps ≠ [] → (∀ c ∈ comps, PlainComp c) →
    splitSlash (joinComps comps) = comps := by
  intro comps
  induction comps with
  | nil => intro h; exact absurd rfl h
  | cons c rest ih =>
    intro _ hall
    cases rest with
    | nil =>
      have hc : '/' ∉ c := (hall c (by simp)).2
      simp only [joinComps]
      rw [splitSlash_of_no_slash c hc]
    | cons r rs =>
      have hc : '/' ∉ c := (hall c (by simp)).2
      simp only [joinComps]
      rw [splitSlash_append_slash c _ hc]
      rw [ih (by simp) (fun x hx => hall x (by simp [hx]))]

theorem foldl_cleanStep_clean :
    ∀ (comps : List (List Char)) (acc : List (List Char)) (rooted : Bool),
    (∀ c ∈ comps, CleanComp c) →
    List.foldl (cleanStep rooted) acc comps = comps.reverse ++ acc := by
  intro comps
  induction comps with
  | nil => intro acc rooted _; simp
  | cons c rest ih =>
    intro acc rooted hall
    have hc := hall c (by simp)
    have hstepc : cleanStep rooted acc c = c :: acc := by
      unfold cleanStep
      rw [if_neg (by push_neg; exact ⟨hc.1.1, hc.2.1⟩), if_neg hc.2.2]
    rw [List.foldl_cons, hstepc, ih (c :: acc) rooted (fun x hx => hall x (by simp [hx]))]
    simp

theorem cleanComps_fixpoint (rooted : Bool) (comps : List (List Char))
    (hall : ∀ c ∈ comps, CleanComp c) : cleanComps rooted comps = comps := by
  unfold cleanComps
  rw [foldl_cleanStep_clean comps [] rooted hall]
  simp

theorem isAbsPath_mkAbs (comps : List (List Char)) : isAbsPath (mkAbs comps) = true := rfl

theorem mkAbs_ne_empty (comps : List (List Char)) : mkAbs comps ≠ "" := by
  intro h
  have := congrArg String.data h
  simp [mkAbs] at this

theorem cleanPath_mkAbs (comps : List (List Char))
    (hall : ∀ c ∈ comps, CleanComp c) : cleanPath (mkAbs comps) = mkAbs comps := by
  simp only [cleanPath]
  rw [if_pos (isAbsPath_mkAbs comps)]
  cases comps with
  | nil => rfl
  | cons c rest =>
    have hsp : splitSlash (mkAbs (c :: rest)).data = [] :: c :: rest := by
      show splitSlash ('/' :: joinComps (c :: rest)) = [] :: c :: rest
      have h1 : splitSlash ('/' :: joinComps (c :: rest)) =
          [] :: splitSlash (joinComps (c :: rest)) := by
        simp [splitSlash]
      rw [h1, splitSlash_joinComps (c :: rest) (by simp) (fun x hx => (hall x hx).1)]
    rw [hsp]
    have hclean : cleanComps true ([] :: c :: rest) = c :: rest := by
      unfold cleanComps
      rw [List.foldl_cons]
      rw [show cleanStep true [] [] = [] from rfl]
      rw [foldl_cleanStep_clean (c :: rest) [] true hall]
      simp
    rw [isAbsPath_mkAbs, hclean]
    rfl

theorem pathCompsClean_mkAbs (comps : List (List Char))
    (hall : ∀ c ∈ comps, CleanComp c) : pathCompsClean (mkAbs comps) = comps := by
  unfold pathCompsClean
  rw [cleanPath_mkAbs comps hall]
  cases comps with
  | nil =>
    show (splitSlash ('/' :: joinComps [])).filter (fun g => ¬ g = []) = []
    rfl
  | cons c rest =>
    show (splitSlash ('/' :: joinComps (c :: rest))).filter (fun g => ¬ g = []) = c :: rest
    simp only [splitSlash, if_pos rfl]
    rw [splitSlash_joinComps (c :: rest) (by simp) (fun x hx => (hall x hx).1)]
    have hkeep : List.filter (fun g => decide (¬ g = [])) (c :: rest) = c :: rest :=
      List.filter_eq_self.mpr (fun a ha => by simpa using (hall a ha).1.1)
    simp only [List.filter_cons]
    simpa using hkeep

theorem foldl_cleanStep_rooted_cleanComp :
    ∀ (comps acc : List (List Char)), (∀ c ∈ acc, CleanComp c) →
    (∀ c ∈ comps, '/' ∉ c) →
    ∀ c ∈ List.foldl (cleanStep true) acc comps, CleanComp c := by
  intro comps
  induction comps with
  | nil => intro acc hacc _ c hc; exact hacc c hc
  | cons c0 rest ih =>
    intro acc hacc hslash
    rw [List.foldl_cons]
    apply ih (cleanStep true acc c0)
    · intro x hx
      unfold cleanStep at hx
      by_cases h1 : c0 = [] ∨ c0 = ['.']
      · rw [if_pos h1] at hx
        exact hacc x hx
      · rw [if_neg h1] at hx
        by_cases h2 : c0 = ['.', '.']
        · rw [if_pos h2] at hx
          cases hac : acc with
          | nil => rw [hac] at hx; simp at hx
          | cons a arest =>
            rw [hac] at hx
            dsimp only at hx
            have ha : CleanComp a := hacc a (by rw [hac]; simp)
            rw [if_neg ha.2.2] at hx
            exact hacc x (by rw [hac]; simp [hx])
        · rw [if_neg h2] at hx
          rcases List.mem_cons.mp hx with h | h
          · subst h
            push_neg at h1
            exact ⟨⟨h1.1, hslash _ (by simp)⟩, h1.2, h2⟩
          · exact hacc x h
    · intro x hx
      exact hslash x (by simp [hx])

theorem cleanComps_rooted_cleanComp (comps : List (List Char))
    (hslash : ∀ c ∈ comps, '/' ∉ c) :
    ∀ c ∈ cleanComps true comps, CleanComp c := by
  intro c hc
  unfold cleanComps at hc
  rw [List.mem_reverse] at hc
  exact foldl_cleanStep_rooted_cleanComp comps [] (by simp) hslash c hc

theorem cleanPath_abs_eq {s : String} (h : isAbsPath s = true) :
    cleanPath s = mkAbs (cleanComps true (splitSlash s.data)) := by
  simp only [cleanPath]
  rw [if_pos h, h]
  rfl

theorem cleanPath_abs_idem {s : String} (h : isAbsPath s = true) :
    cleanPath (cleanPath s) = cleanPath s := by
  rw [cleanPath_abs_eq h]
  exact cleanPath_mkAbs _ (cleanComps_rooted_cleanComp _ (splitSlash_no_slash s.data))

theorem isAbsPath_cleanPath {s : String} (h : isAbsPath s = true) :
    isAbsPath (cleanPath s) = true := by
  rw [cleanPath_abs_eq h]
  exact isAbsPath_mkAbs _

theorem pathCompsClean_cleanPath {s : String} (h : isAbsPath s = true) :
    pathCompsClean (cleanPath s) = pathCompsClean s := by
  unfold pathCompsClean
  rw [cleanPath_abs_idem h]

theorem pathCompsClean_cleanComp {s : String} (h : isAbsPath s = true) :
    ∀ c ∈ pathCompsClean s, CleanComp c := by
  intro c hc
  unfold pathCompsClean at hc
  rw [List.mem_filter] at hc
  have h1 := hc.1
  rw [cleanPath_abs_eq h] at h1
  -- elements of the split of a rendered absolute clean path are its
  -- elements plus empty groups
  have h2 : c ∈ [] :: cleanComps true (splitSlash s.data) := by
    have hall := cleanComps_rooted_cleanComp (splitSlash s.data) (splitSlash_no_slash s.data)
    cases hcc : cleanComps true (splitSlash s.data) with
    | nil =>
      rw [hcc] at h1
      have : splitSlash (mkAbs []).data = [[], []] := rfl
      rw [this] at h1
      simp at h1
      simp [h1]
    | cons x xs =>
      rw [hcc] at h1
      have hsp : splitSlash (mkAbs (x :: xs)).data = [] :: x :: xs := by
        show splitSlash ('/' :: joinComps (x :: xs)) = [] :: x :: xs
        have hstep : splitSlash ('/' :: joinComps (x :: xs)) =
            [] :: splitSlash (joinComps (x :: xs)) := by
          simp [splitSlash]
        rw [hstep, splitSlash_joinComps (x :: xs) (by simp)
          (fun y hy => (hall y (by rw [hcc]; exact hy)).1)]
      rw [hsp] at h1
      exact h1
  rcases List.mem_cons.mp h2 with h3 | h3
  · subst h3
    simp at hc
  · exact cleanComps_rooted_cleanComp (splitSlash s.data) (splitSlash_no_slash s.data) c h3

theorem relComps_append (bs ts : List (List Char)) : relComps bs (bs ++ ts) = ts := by
  induction bs with
  | nil => rfl
  | cons b bs ih =>
    simp only [List.cons_append, relComps, if_pos rfl]
    exact ih

theorem relComps_not_prefix :
    ∀ (bs ts : List (List Char)), ¬ (bs <+: ts) →
    ∃ n rest, relComps bs ts = List.replicate (n + 1) ['.', '.'] ++ rest := by
  intro bs
  induction bs with
  | nil => intro ts h; exact absurd List.nil_prefix h
  | cons b bs ih =>
    intro ts h
    cases ts with
    | nil =>
      refine ⟨bs.length, [], ?_⟩
      simp [relComps]
    | cons t ts1 =>
      by_cases hbt : b = t
      · subst hbt
        have h1 : ¬ (bs <+: ts1) := fun hp => h (List.cons_prefix_cons.mpr ⟨rfl, hp⟩)
        simp only [relComps, if_pos rfl]
        exact ih ts1 h1
      · refine ⟨bs.length, t :: ts1, ?_⟩
        simp only [relComps, if_neg hbt]

theorem strHasPfx_dotdot_head (xs : List (List Char)) :
    strHasPfx (String.mk (joinComps (['.', '.'] :: xs))) ".." = true := by
  unfold strHasPfx
  rw [List.isPrefixOf_iff_prefix]
  show ['.', '.'] <+: joinComps (['.', '.'] :: xs)
  cases xs with
  | nil => exact List.prefix_rfl
  | cons x xs1 =>
    show ['.', '.'] <+: ['.', '.'] ++ '/' :: joinComps (x :: xs1)
    exact List.prefix_append _ _

theorem strHasPfx_safe_head_false (c : List Char) (xs : List (List Char))
    (hc : SafeComp c) :
    strHasPfx (String.mk (joinComps (c :: xs))) ".." = false := by
  unfold strHasPfx
  rw [Bool.eq_false_iff]
  intro hpre
  rw [List.isPrefixOf_iff_prefix] at hpre
  have hnot : ¬ (['.', '.'] <+: joinComps (c :: xs)) := by
    have hcne : c ≠ [] := hc.1.1.1
    have hcdot : c ≠ ['.'] := hc.1.2.1
    have hcdd : ¬ (['.', '.'] <+: c) := hc.2
    cases xs with
    | nil => exact hcdd
    | cons x xs1 =>
      show ¬ (['.', '.'] <+: c ++ '/' :: joinComps (x :: xs1))
      intro hp
      rcases c with _ | ⟨a, c1⟩
      · exact hcne rfl
      · rw [List.cons_append, List.cons_prefix_cons] at hp
        obtain ⟨ha, hp1⟩ := hp
        rcases c1 with _ | ⟨b, c2⟩
        · rw [List.nil_append, List.cons_prefix_cons] at hp1
          exact absurd hp1.1.symm (by decide)
        · rw [List.cons_append, List.cons_prefix_cons] at hp1
          obtain ⟨hb, _⟩ := hp1
          refine hcdd ⟨c2, ?_⟩
          subst ha
          subst hb
          rfl
  exact hnot hpre

theorem goAbs_abs (cwd : String) {s : String} (h : isAbsPath s = true) :
    goAbs cwd s = cleanPath s := by
  unfold goAbs
  rw [if_pos h]

theorem validatePath_abs (cwd : String) (projectRoot fileP : String)
    (h1 : isAbsPath projectRoot = true) (h2 : isAbsPath fileP = true) :
    ValidatePath cwd projectRoot fileP =
      if strHasPfx (relPath (cleanPath projectRoot) (cleanPath fileP)) ".." then
        .error ("path is outside project root: " ++ fileP)
      else .ok () := by
  simp only [ValidatePath]
  rw [goAbs_abs cwd h1, goAbs_abs cwd h2]

theorem validatePath_outside (cwd : String) {rootComps : List (List Char)}
    (hroot : ∀ c ∈ rootComps, CleanComp c) {fileP : String}
    (habs : isAbsPath fileP = true)
    (hout : ¬ (rootComps <+: pathCompsClean fileP)) :
    ∃ e, ValidatePath cwd (mkAbs rootComps) fileP = .error e := by
  obtain ⟨n, rest, hrc⟩ := relComps_not_prefix rootComps (pathCompsClean fileP) hout
  have hrc2 : relComps rootComps (pathCompsClean fileP) =
      ['.', '.'] :: (List.replicate n ['.', '.'] ++ rest) := by
    rw [hrc]
    simp [List.replicate_succ]
  have hrel : relPath (mkAbs rootComps) (cleanPath fileP) =
      String.mk (joinComps (['.', '.'] :: (List.replicate n ['.', '.'] ++ rest))) := by
    simp only [relPath]
    rw [pathCompsClean_mkAbs rootComps hroot, pathCompsClean_cleanPath habs, hrc2]
    rw [if_neg (List.cons_ne_nil _ _)]
  refine ⟨"path is outside project root: " ++ fileP, ?_⟩
  rw [validatePath_abs cwd _ _ (isAbsPath_mkAbs rootComps) habs]
  rw [cleanPath_mkAbs rootComps hroot]
  rw [hrel, strHasPfx_dotdot_head]
  rw [if_pos rfl]

theorem validatePath_inside (cwd : String) {rootComps pComps : List (List Char)}
    (hroot : ∀ c ∈ rootComps, CleanComp c) (hp : ∀ c ∈ pComps, SafeComp c) :
    ValidatePath cwd (mkAbs rootComps) (mkAbs (rootComps ++ pComps)) = .ok () := by
  have hall : ∀ c ∈ rootComps ++ pComps, CleanComp c := by
    intro c hc
    rcases List.mem_append.mp hc with h | h
    · exact hroot c h
    · exact (hp c h).1
  rw [validatePath_abs cwd _ _ (isAbsPath_mkAbs rootComps)
    (isAbsPath_mkAbs (rootComps ++ pComps))]
  rw [cleanPath_mkAbs rootComps hroot, cleanPath_mkAbs _ hall]
  cases pComps with
  | nil =>
    have hrel : relPath (mkAbs rootComps) (mkAbs (rootComps ++ [])) = "." := by
      simp only [relPath]
      rw [pathCompsClean_mkAbs rootComps hroot, pathCompsClean_mkAbs _ hall,
        relComps_append]
      rfl
    rw [hrel]
    rw [show strHasPfx "." ".." = false from rfl]
    rw [if_neg (by simp)]
  | cons c cs =>
    have hrel : relPath (mkAbs rootComps) (mkAbs (rootComps ++ c :: cs)) =
        String.mk (joinComps (c :: cs)) := by
      simp only [relPath]
      rw [pathCompsClean_mkAbs rootComps hroot, pathCompsClean_mkAbs _ hall,
        relComps_append]
      rw [if_neg (List.cons_ne_nil _ _)]
    rw [hrel, strHasPfx_safe_head_false c cs (hp c (by simp))]
    rw [if_neg (by simp)]

theorem joinComps_ne_nil (c : List Char) (cs : List (List Char)) (hc : c ≠ []) :
    joinComps (c :: cs) ≠ [] := by
  cases cs with
  | nil => exact hc
  | cons x cs1 =>
    show c ++ '/' :: joinComps (x :: cs1) ≠ []
    simp

theorem joinComps_append :
    ∀ (as bs : List (List Char)), as ≠ [] → bs ≠ [] →
    joinComps (as ++ bs) = joinComps as ++ '/' :: joinComps bs := by
  intro as
  induction as with
  | nil => intro bs h; exact absurd rfl h
  | cons a as1 ih =>
    intro bs _ hbs
    cases as1 with
    | nil =>
      cases bs with
      | nil => exact absurd rfl hbs
      | cons b bs1 => rfl
    | cons a2 as2 =>
      rw [List.cons_append]
      have h1 : joinComps (a :: ((a2 :: as2) ++ bs)) =
          a ++ '/' :: joinComps ((a2 :: as2) ++ bs) := by
        rw [List.cons_append]
        rfl
      rw [h1, ih bs (by simp) hbs]
      show a ++ '/' :: (joinComps (a2 :: as2) ++ '/' :: joinComps bs) =
        (a ++ '/' :: joinComps (a2 :: as2)) ++ '/' :: joinComps bs
      simp [List.append_assoc]

theorem isAbsPath_mk_cons_ne (a : Char) (l : List Char) (h : a ≠ '/') :
    isAbsPath (String.mk (a :: l)) = false := by
  unfold isAbsPath
  split <;> simp_all

theorem isAbsPath_mkRel {pComps : List (List Char)} (hp : ∀ c ∈ pComps, SafeComp c) :
    isAbsPath (mkRel pComps) = false := by
  cases pComps with
  | nil => rfl
  | cons c cs =>
    have hc := hp c (by simp)
    rcases hcs : c with _ | ⟨a, c1⟩
    · exact absurd rfl (hcs ▸ hc.1.1.1)
    · have ha : a ≠ '/' := by
        have hs : '/' ∉ c := hc.1.1.2
        rw [hcs] at hs
        simp at hs
        exact fun h => hs.1 h.symm
      cases cs with
      | nil => exact isAbsPath_mk_cons_ne a c1 ha
      | cons x cs1 =>
        show isAbsPath (String.mk ((a :: c1) ++ '/' :: joinComps (x :: cs1))) = false
        rw [List.cons_append]
        exact isAbsPath_mk_cons_ne a _ ha

theorem mkRel_ne_empty (c : List Char) (cs : List (List Char)) (hc : c ≠ []) :
    mkRel (c :: cs) ≠ "" := by
  intro h
  have hd := congrArg String.data h
  simp only [mkRel] at hd
  exact joinComps_ne_nil c cs hc hd

theorem joinPath_mkAbs_mkRel {rootComps pComps : List (List Char)}
    (hroot : ∀ c ∈ rootComps, CleanComp c) (hp : ∀ c ∈ pComps, SafeComp c) :
    joinPath (mkAbs rootComps) (mkRel pComps) = mkAbs (rootComps ++ pComps) := by
  cases pComps with
  | nil =>
    show joinPath (mkAbs rootComps) "" = mkAbs (rootComps ++ [])
    unfold joinPath
    rw [if_neg (by simp [mkAbs_ne_empty rootComps]), if_neg (mkAbs_ne_empty rootComps),
      if_pos rfl]
    rw [cleanPath_mkAbs rootComps hroot]
    simp
  | cons c cs =>
    have hcne : c ≠ [] := (hp c (by simp)).1.1.1
    have hbne : mkRel (c :: cs) ≠ "" := mkRel_ne_empty c cs hcne
    unfold joinPath
    rw [if_neg (by simp [hbne]), if_neg (mkAbs_ne_empty rootComps), if_neg hbne]
    have hall : ∀ x ∈ rootComps ++ c :: cs, CleanComp x := by
      intro x hx
      rcases List.mem_append.mp hx with h | h
      · exact hroot x h
      · exact (hp x h).1
    cases hrc : rootComps with
    | nil =>
      -- root is "/": the raw concatenation has a duplicated slash that
      -- Clean removes
      show cleanPath (String.mk (('/' :: joinComps []) ++ '/' :: joinComps (c :: cs))) =
        mkAbs (c :: cs)
      have hd : ('/' :: joinComps []) ++ '/' :: joinComps (c :: cs) =
          '/' :: '/' :: joinComps (c :: cs) := rfl
      rw [hd]
      have habs0 : isAbsPath (String.mk ('/' :: '/' :: joinComps (c :: cs))) = true := rfl
      rw [cleanPath_abs_eq habs0]
      have hsp : splitSlash ('/' :: '/' :: joinComps (c :: cs)) =
          [] :: [] :: (c :: cs) := by
        have h1 : splitSlash ('/' :: '/' :: joinComps (c :: cs)) =
            [] :: [] :: splitSlash (joinComps (c :: cs)) := by
          simp [splitSlash]
        rw [h1, splitSlash_joinComps (c :: cs) (by simp)
          (fun x hx => ((hrc ▸ hall) x (by simp [hx])).1)]
      show mkAbs (cleanComps true (splitSlash ('/' :: '/' :: joinComps (c :: cs)))) =
        mkAbs (c :: cs)
      rw [hsp]
      have hclean : cleanComps true ([] :: [] :: (c :: cs)) = c :: cs := by
        unfold cleanComps
        rw [List.foldl_cons, List.foldl_cons]
        rw [show cleanStep true [] [] = [] from rfl, show cleanStep true [] [] = [] from rfl]
        rw [foldl_cleanStep_clean (c :: cs) [] true
          (fun x hx => (hrc ▸ hall) x (by simp [hx]))]
        simp
      rw [hclean]
    | cons r rs =>
      show cleanPath (String.mk (('/' :: joinComps (r :: rs)) ++ '/' :: joinComps (c :: cs))) =
        mkAbs ((r :: rs) ++ c :: cs)
      have hd : ('/' :: joinComps (r :: rs)) ++ '/' :: joinComps (c :: cs) =
          '/' :: joinComps ((r :: rs) ++ c :: cs) := by
        rw [joinComps_append (r :: rs) (c :: cs) (by simp) (by simp)]
        rfl
      rw [hd]
      exact cleanPath_mkAbs ((r :: rs) ++ c :: cs) (hrc ▸ hall)

theorem isAbsPath_joinPath_abs (rootComps : List (List Char)) (p : String) :
    isAbsPath (joinPath (mkAbs rootComps) p) = true := by
  unfold joinPath
  by_cases hp0 : p = ""
  · rw [if_neg (by simp [mkAbs_ne_empty rootComps]), if_neg (mkAbs_ne_empty rootComps),
      if_pos hp0]
    exact isAbsPath_cleanPath (isAbsPath_mkAbs rootComps)
  · rw [if_neg (by simp [mkAbs_ne_empty rootComps]), if_neg (mkAbs_ne_empty rootComps),
      if_neg hp0]
    have hd : (mkAbs rootComps).data ++ '/' :: p.data =
        '/' :: (joinComps rootComps ++ '/' :: p.data) := rfl
    rw [hd]
    exact isAbsPath_cleanPath rfl

theorem resolvePath_inside (cwd : String) {rootComps pComps : List (List Char)}
    (hroot : ∀ c ∈ rootComps, CleanComp c) (hp : ∀ c ∈ pComps, SafeComp c) :
    ResolvePath cwd (mkAbs rootComps) (mkRel pComps) =
      .ok (mkAbs (rootComps ++ pComps)) := by
  have hstep : ResolvePath cwd (mkAbs rootComps) (mkRel pComps) =
      match ValidatePath cwd (mkAbs rootComps)
          (joinPath (mkAbs rootComps) (mkRel pComps)) with
      | .error e => .error e
      | .ok _ => .ok (joinPath (mkAbs rootComps) (mkRel pComps)) := by
    simp only [ResolvePath]
    rw [isAbsPath_mkRel hp]
    rfl
  rw [hstep, joinPath_mkAbs_mkRel hroot hp, validatePath_inside cwd hroot hp]

theorem resolvePath_outside (cwd : String) {rootComps : List (List Char)}
    (hroot : ∀ c ∈ rootComps, CleanComp c) (p : String)
    (hout : ¬ (rootComps <+: pathCompsClean (resolvedPath (mkAbs rootComps) p))) :
    (ResolvePath cwd (mkAbs rootComps) p).isOk = false := by
  by_cases habs : isAbsPath p = true
  · have hout1 : ¬ (rootComps <+: pathCompsClean p) := by
      simpa [resolvedPath, habs] using hout
    obtain ⟨e, he⟩ := validatePath_outside cwd hroot habs hout1
    have hres : ResolvePath cwd (mkAbs rootComps) p = .error e := by
      simp only [ResolvePath]
      rw [habs, he]
      rfl
    rw [hres]
    rfl
  · have habs1 : isAbsPath p = false := by simpa using habs
    have hout1 : ¬ (rootComps <+: pathCompsClean (joinPath (mkAbs rootComps) p)) := by
      simpa [resolvedPath, habs1] using hout
    obtain ⟨e, he⟩ := validatePath_outside cwd hroot
      (isAbsPath_joinPath_abs rootComps p) hout1
    have hstep : ResolvePath cwd (mkAbs rootComps) p =
        match ValidatePath cwd (mkAbs rootComps) (joinPath (mkAbs rootComps) p) with
        | .error e1 => .error e1
        | .ok _ => .ok (joinPath (mkAbs rootComps) p) := by
      simp only [ResolvePath]
      rw [habs1]
      rfl
    rw [hstep, he]
    rfl

/-! ## Claim C5 -/

/-- C5 (amended): `ResolvePath` fails for every path that resolves outside
the project root — including the traversal `"../../etc/passwd"` and
absolute paths outside the root — and succeeds for every relative path all
of whose segments are plain names (nonempty, no separator, not `.` or
`..`, and not beginning with the two characters `..`), returning exactly
the root joined with the path. A relative path whose first segment merely
begins with `..` (such as `"..d/b.go"`) is rejected by the
`strings.HasPrefix(rel, "..")` check even though it stays inside the root,
which is the one correction to the claim. -/
theorem claim5_path_containment :
    (∀ (cwd : String) (rootComps : List (List Char)) (p : String),
      (∀ c ∈ rootComps, CleanComp c) →
      ¬ (rootComps <+: pathCompsClean (resolvedPath (mkAbs rootComps) p)) →
      (ResolvePath cwd (mkAbs rootComps) p).isOk = false) ∧
    (∀ (cwd : String) (rootComps pComps : List (List Char)),
      (∀ c ∈ rootComps, CleanComp c) → (∀ c ∈ pComps, SafeComp c) →
      ResolvePath cwd (mkAbs rootComps) (mkRel pComps) =
        .ok (mkAbs (rootComps ++ pComps))) ∧
    (∀ rootComps pComps : List (List Char), rootComps ≠ [] → pComps ≠ [] →
      mkAbs (rootComps ++ pComps) = mkAbs rootComps ++ "/" ++ mkRel pComps) := by
  refine ⟨?_, ?_, ?_⟩
  · intro cwd rootComps p hroot hout
    exact resolvePath_outside cwd hroot p hout
  · intro cwd rootComps pComps hroot hp
    exact resolvePath_inside cwd hroot hp
  · intro rootComps pComps hr hp
    show String.mk ('/' :: joinComps (rootComps ++ pComps)) =
      String.mk ('/' :: joinComps rootComps) ++ String.mk ['/'] ++ String.mk (joinComps pComps)
    have happ : ∀ (a b : List Char), String.mk a ++ String.mk b = String.mk (a ++ b) :=
      fun a b => rfl
    rw [happ, happ]
    rw [joinComps_append rootComps pComps hr hp]
    simp

theorem claim5_witness :
    (ResolvePath "/" (mkAbs [['p', 'r', 'o', 'j']]) "../../etc/passwd").isOk = false ∧
    ResolvePath "/" (mkAbs [['p', 'r', 'o', 'j']]) (mkRel [['a'], ['b', '.', 'g', 'o']]) =
      .ok (mkAbs [['p', 'r', 'o', 'j'], ['a'], ['b', '.', 'g', 'o']]) ∧
    ResolvePath "/" "/proj" "a/b.go" = .ok "/proj/a/b.go" := by
  refine ⟨claim5_path_containment.1 "/" [['p', 'r', 'o', 'j']] "../../etc/passwd"
      (by decide) (by decide),
    claim5_path_containment.2.1 "/" [['p', 'r', 'o', 'j']] [['a'], ['b', '.', 'g', 'o']]
      (by decide) (by decide), rfl⟩

/-- C5 counterexample: the relative path `"..d/b.go"` resolves inside the
root `"/proj"` (to `"/proj/..d/b.go"`), yet `ResolvePath` rejects it, so
ResolvePath does not succeed on every in-root relative path. -/
theorem claim5_counterexample :
    (ResolvePath "/" "/proj" "..d/b.go").isOk = false ∧
    resolvedPath "/proj" "..d/b.go" = "/proj/..d/b.go" ∧
    pathCompsClean "/proj" <+: pathCompsClean (resolvedPath "/proj" "..d/b.go") :=
  ⟨rfl, rfl, ⟨[['.', '.', 'd'], ['b', '.', 'g', 'o']], rfl⟩⟩

/-! ## Claim C8 -/

/-- C8: when the user declines the confirmation prompt of a mutating tool
(shown here for `toolWriteFile` and `toolDeleteFile`), the tool returns the
structured cancelled JSON result on the success path — no error reaches
the orchestrator — and the filesystem is left unchanged. -/
theorem claim8_decline_cancels (cwd projectRoot : String)
    (shouldIgnore : String → Bool) (fs : FSState) (line : String)
    (args : Args) (path content fullPath old : String)
    (hline : confirmAffirmative line = false)
    (hpath : getStringArg args "path" = some path) (hne : path ≠ "")
    (hcontent : getStringArg args "content" = some content)
    (hres : ResolvePath cwd projectRoot path = .ok fullPath)
    (hexists : fs.files.lookup fullPath = some old) :
    toolWriteFile cwd projectRoot shouldIgnore fs (some line) args =
      (.ok cancelledJSON, fs) ∧
    toolDeleteFile cwd projectRoot fs (some line) args = (.ok cancelledJSON, fs) := by
  constructor
  · simp only [toolWriteFile, hpath]
    rw [if_neg hne]
    simp only [hcontent, hres, confirmAction, hline]
    rfl
  · simp only [toolDeleteFile, hpath]
    rw [if_neg hne]
    simp only [hres, hexists, confirmAction, hline]
    rfl

theorem claim8_witness :
    toolWriteFile "/" "/proj" (fun _ => false) ⟨[("/proj/a.txt", "hi")]⟩ (some "n")
        [("path", "a.txt"), ("content", "x")] =
      (.ok cancelledJSON, ⟨[("/proj/a.txt", "hi")]⟩) ∧
    toolDeleteFile "/" "/proj" ⟨[("/proj/a.txt", "hi")]⟩ (some "n")
        [("path", "a.txt"), ("content", "x")] =
      (.ok cancelledJSON, ⟨[("/proj/a.txt", "hi")]⟩) :=
  claim8_decline_cancels "/" "/proj" (fun _ => false) ⟨[("/proj/a.txt", "hi")]⟩ "n"
    [("path", "a.txt"), ("content", "x")] "a.txt" "x" "/proj/a.txt" "hi"
    rfl rfl (by decide) rfl rfl rfl

end Axon
